import Mathlib

/-! SimpleBlockchain: the hash chain of `main.go`.

A shallow embedding of the chain core of `main.go` (the types `BookCheckout`,
`Block`, `BlockChain` and the functions `generateHash`, `validateHash`,
`CreateBlock`, `validBlock`, `AddBlock`, `GenesisBlock`,
`DeployFreshBlockChain`), followed by theorems about it.

Modelling conventions.

* A Go `string` is a Lean `String`: the text is taken to be valid UTF-8, as is
  every string the program builds (decoded JSON, `time.Now().String()`, hex
  digests, `string(rune)`).
* A Go `int` is an `Int`; the addition `goAdd` wraps its result into the 64-bit
  two's complement range, as Go's `+` does.
* A method with a pointer receiver that writes a field returns the updated
  block (explicit state passing).
* `time.Now().String()` is an input `now` of the functions that read the clock.
* The library call chain `sha256.New` / `Write` / `Sum` / `hex.EncodeToString`
  is a parameter `sha : String → String` (the hexadecimal SHA-256 digest of a
  text); the theorems hold for every such function.
* `json.Marshal` on a `BookCheckout` is modelled rune by rune after
  `encoding/json` (`appendString`, with HTML escaping as `Marshal` does).
-/

namespace SimpleBlockchain

/-! ## Data model -/

/-- The payload `BookCheckout` of `main.go`, fields in declaration order. -/
structure BookCheckout where
  BookID : String
  User : String
  CheckDate : String
  IsGenesis : Bool
deriving DecidableEq, Repr

/-- The record `Block` of `main.go`. -/
structure Block where
  Pos : Int
  Data : BookCheckout
  TimeStamp : String
  Hash : String
  PrevHash : String
deriving DecidableEq, Repr

/-- The chain `BlockChain` of `main.go`: the slice `blocks`. -/
structure BlockChain where
  blocks : List Block
deriving DecidableEq, Repr

/-! ## Go primitives used by the chain -/

/-- Go `int` arithmetic on a 64-bit platform: the two's complement
representative of an integer in `[-2^63, 2^63)`. -/
def wrapInt (x : Int) : Int :=
  (x + 9223372036854775808) % 18446744073709551616 - 9223372036854775808

/-- Go's `+` on two `int` values: the sum, wrapped. -/
def goAdd (a b : Int) : Int :=
  wrapInt (a + b)

/-- Go's conversion `string(i)` of an `int`: the UTF-8 text of the code point
`i`, and U+FFFD for a value that is no valid code point (negative, a surrogate,
above U+10FFFF). -/
def runeToString (p : Int) : String :=
  if 0 ≤ p ∧ (p < 55296 ∨ (57343 < p ∧ p < 1114112)) then
    String.singleton (Char.ofNat p.toNat)
  else
    String.singleton (Char.ofNat 65533)

/-- The table `hex = "0123456789abcdef"` of `encoding/json`, indexed. -/
def hexDigit (n : Nat) : Char :=
  if n < 10 then Char.ofNat (48 + n) else Char.ofNat (87 + n)

/-- The table `htmlSafeSet` of `encoding/json` on a code below 128: printable
ASCII other than the double quote (34), `&` (38), `<` (60), `>` (62) and the
backslash (92). -/
def htmlSafe (n : Nat) : Bool :=
  decide (32 ≤ n) && decide (n ≠ 34) && decide (n ≠ 38) && decide (n ≠ 60) &&
    decide (n ≠ 62) && decide (n ≠ 92)

/-- One round of the loop of `appendString` in `encoding/json` (with
`escapeHTML` set): what is written for the rune `c`.  Code 92 is the
backslash, 117 is `u`, 48 is `0`, 50 is `2`.  The two-character forms for the
codes 8 and 12 are those of Go 1.22 and later (earlier releases write the
six-character form for them). -/
def appendRune (c : Char) : List Char :=
  let n := c.toNat
  if n < 128 then
    if htmlSafe n then [c]
    else if n = 92 ∨ n = 34 then [Char.ofNat 92, c]
    else if n = 8 then [Char.ofNat 92, Char.ofNat 98]
    else if n = 12 then [Char.ofNat 92, Char.ofNat 102]
    else if n = 10 then [Char.ofNat 92, Char.ofNat 110]
    else if n = 13 then [Char.ofNat 92, Char.ofNat 114]
    else if n = 9 then [Char.ofNat 92, Char.ofNat 116]
    else [Char.ofNat 92, Char.ofNat 117, Char.ofNat 48, Char.ofNat 48,
          hexDigit (n / 16), hexDigit (n % 16)]
  else if n = 8232 ∨ n = 8233 then
    [Char.ofNat 92, Char.ofNat 117, Char.ofNat 50, Char.ofNat 48, Char.ofNat 50,
      hexDigit (n % 16)]
  else [c]

/-- The loop of `appendString` over the runes of the text. -/
def appendRunes : List Char → List Char
  | [] => []
  | c :: cs => appendRune c ++ appendRunes cs

/-- The function `appendString` of `encoding/json`: the JSON string literal of a
text, between two double quotes (code 34). -/
def appendString (s : String) : List Char :=
  Char.ofNat 34 :: (appendRunes s.data ++ [Char.ofNat 34])

/-- The JSON text of a `bool`. -/
def appendBool (b : Bool) : List Char :=
  if b then "true".data else "false".data

/-- The call `json.Marshal(block.Data)`: an object with the keys of the struct
tags in declaration order, `book_id`, `user`, `check_date`, `is_genesis`. -/
def jsonMarshal (d : BookCheckout) : String :=
  String.mk ("\x7b\x22book_id\x22:".data ++ appendString d.BookID ++
    ",\x22user\x22:".data ++ appendString d.User ++
    ",\x22check_date\x22:".data ++ appendString d.CheckDate ++
    ",\x22is_genesis\x22:".data ++ appendBool d.IsGenesis ++ "\x7d".data)

/-! ## The chain core -/

/-- The local `data` of `generateHash`, the text handed to SHA-256:
`string(block.Pos) + block.TimeStamp + string(bytes) + block.PrevHash`. -/
def hashInput (block : Block) : String :=
  runeToString block.Pos ++ block.TimeStamp ++ jsonMarshal block.Data ++ block.PrevHash

/-- The method `generateHash`: stores the hexadecimal digest of `hashInput` in
`block.Hash`. -/
def generateHash (sha : String → String) (block : Block) : Block :=
  { block with Hash := sha (hashInput block) }

/-- The method `validateHash`: regenerates the hash in place, then compares the
stored hash with the argument.  Returns the answer and the block as left. -/
def validateHash (sha : String → String) (block : Block) (hash : String) : Bool × Block :=
  let block1 := generateHash sha block
  (decide (block1.Hash = hash), block1)

/-- The function `CreateBlock`; `now` is the text of `time.Now().String()`. -/
def CreateBlock (sha : String → String) (now : String) (data : BookCheckout)
    (prevBlock : Block) : Block :=
  generateHash sha
    { Pos := goAdd prevBlock.Pos 1
      Data := data
      TimeStamp := now
      Hash := ""
      PrevHash := prevBlock.Hash }

/-- The function `validBlock`, with the left-to-right short circuit of `||`:
`validateHash` runs (and rewrites `block.Hash`) only when the first test
passes, and is called with the hash stored at that moment.  Returns the answer
and `block` as left; `prevBlock` is only read. -/
def validBlock (sha : String → String) (block prevBlock : Block) : Bool × Block :=
  if prevBlock.Hash ≠ block.PrevHash then (false, block)
  else
    let r := validateHash sha block block.Hash
    if r.1 = false then (false, r.2)
    else if goAdd prevBlock.Pos 1 ≠ r.2.Pos then (false, r.2)
    else (true, r.2)

/-- The method `AddBlock`.  Indexing `b.blocks[len(b.blocks)-1]` panics on an
empty slice: the result is `none` there.  Otherwise the chain after the call;
the appended block is the candidate as `validBlock` left it. -/
def AddBlock (sha : String → String) (now : String) (b : BlockChain)
    (bookCheckout : BookCheckout) : Option BlockChain :=
  match b.blocks.getLast? with
  | none => none
  | some prevBlock =>
    let block := CreateBlock sha now bookCheckout prevBlock
    let r := validBlock sha block prevBlock
    if r.1 = true then some { blocks := b.blocks ++ [r.2] } else some b

/-- The zero value `BookCheckout{}`. -/
def zeroCheckout : BookCheckout :=
  { BookID := "", User := "", CheckDate := "", IsGenesis := false }

/-- The zero value `Block{}`. -/
def zeroBlock : Block :=
  { Pos := 0, Data := zeroCheckout, TimeStamp := "", Hash := "", PrevHash := "" }

/-- The function `GenesisBlock`: `CreateBlock(BookCheckout{IsGenesis: true}, &Block{})`. -/
def GenesisBlock (sha : String → String) (now : String) : Block :=
  CreateBlock sha now { zeroCheckout with IsGenesis := true } zeroBlock

/-- The function `DeployFreshBlockChain`. -/
def DeployFreshBlockChain (sha : String → String) (now : String) : BlockChain :=
  { blocks := [GenesisBlock sha now] }

/-- The chains the program can hold: the fresh chain, and what `AddBlock` makes
of a chain it can hold, for any payload and clock reading. -/
inductive Reachable (sha : String → String) : BlockChain → Prop
  | fresh (now : String) : Reachable sha (DeployFreshBlockChain sha now)
  | add (now : String) (data : BookCheckout) (c c1 : BlockChain) :
      Reachable sha c → AddBlock sha now c data = some c1 → Reachable sha c1

/-! ## Auxiliary definitions for the statements and proofs -/

/-- A digest stand-in for concrete instances: the text itself.  It is injective,
as the tamper-evidence claims take SHA-256 to be. -/
def textDigest : String → String := fun s => s

/-- The digest input as the specification words it, for comparison with
`hashInput`: the decimal text of `Pos`, then `TimeStamp`, the JSON of `Data`
and `PrevHash`. -/
def hashInputSpec (block : Block) : String :=
  toString block.Pos ++ block.TimeStamp ++ jsonMarshal block.Data ++ block.PrevHash

/-- A sample genesis block. -/
def sampleGenesis : Block := GenesisBlock textDigest "T0"

/-- A sample second block, built on `sampleGenesis`. -/
def sampleSecond : Block := CreateBlock textDigest "T1" zeroCheckout sampleGenesis

/-- A sample chain of two blocks. -/
def sampleChain : BlockChain := { blocks := [sampleGenesis, sampleSecond] }

/-- A sample block whose stored hash is not the digest of its fields. -/
def sampleCorrupt : Block :=
  { Pos := 1, Data := zeroCheckout, TimeStamp := "T0", Hash := "bad", PrevHash := "" }

/-- The value of a hexadecimal digit (used only to decode `appendRune`). -/
def hexVal (c : Char) : Nat :=
  if c.toNat < 58 then c.toNat - 48 else c.toNat - 87

/-- A reader for what `appendRune` writes: the first rune of an escaped text and
the rest.  It is not part of the program; it serves to show that the JSON
encoding loses nothing. -/
def unescapeRune : List Char → Option (Char × List Char)
  | [] => none
  | a :: r =>
    if a.toNat ≠ 92 then some (a, r)
    else
      match r with
      | [] => none
      | e :: r2 =>
        if e.toNat = 92 ∨ e.toNat = 34 then some (e, r2)
        else if e.toNat = 98 then some (Char.ofNat 8, r2)
        else if e.toNat = 102 then some (Char.ofNat 12, r2)
        else if e.toNat = 110 then some (Char.ofNat 10, r2)
        else if e.toNat = 114 then some (Char.ofNat 13, r2)
        else if e.toNat = 116 then some (Char.ofNat 9, r2)
        else
          match r2 with
          | h1 :: h2 :: h3 :: h4 :: r3 =>
            some (Char.ofNat (hexVal h1 * 4096 + hexVal h2 * 256 + hexVal h3 * 16 + hexVal h4), r3)
          | _ => none

/-- Two blocks differ in exactly one of `TimeStamp`, `Data`, `PrevHash`. -/
def DiffersInOne (b1 b2 : Block) : Prop :=
  (b1.TimeStamp ≠ b2.TimeStamp ∧ b1.Data = b2.Data ∧ b1.PrevHash = b2.PrevHash) ∨
  (b1.TimeStamp = b2.TimeStamp ∧ b1.Data ≠ b2.Data ∧ b1.PrevHash = b2.PrevHash) ∨
  (b1.TimeStamp = b2.TimeStamp ∧ b1.Data = b2.Data ∧ b1.PrevHash ≠ b2.PrevHash)

/-! ## Basic facts about the chain core -/

theorem hashInput_generateHash (sha : String → String) (b : Block) :
    hashInput (generateHash sha b) = hashInput b := rfl

theorem generateHash_generateHash (sha : String → String) (b : Block) :
    generateHash sha (generateHash sha b) = generateHash sha b := rfl

theorem validateHash_generateHash (sha : String → String) (b : Block) :
    validateHash sha (generateHash sha b) (generateHash sha b).Hash =
      (true, generateHash sha b) := by
  simp [validateHash, generateHash, hashInput]

theorem validBlock_CreateBlock (sha : String → String) (now : String) (d : BookCheckout)
    (prev : Block) :
    validBlock sha (CreateBlock sha now d prev) prev = (true, CreateBlock sha now d prev) := by
  simp [validBlock, validateHash, CreateBlock, generateHash, hashInput]

theorem AddBlock_of_getLast? (sha : String → String) (now : String) (c : BlockChain)
    (d : BookCheckout) (prev : Block) (h : c.blocks.getLast? = some prev) :
    AddBlock sha now c d = some { blocks := c.blocks ++ [CreateBlock sha now d prev] } := by
  simp [AddBlock, h, validBlock_CreateBlock]

theorem AddBlock_inv (sha : String → String) (now : String) (c c1 : BlockChain)
    (d : BookCheckout) (h : AddBlock sha now c d = some c1) :
    ∃ prev, c.blocks.getLast? = some prev ∧
      c1.blocks = c.blocks ++ [CreateBlock sha now d prev] := by
  cases hl : c.blocks.getLast? with
  | none => simp [AddBlock, hl] at h
  | some prev =>
    rw [AddBlock_of_getLast? sha now c d prev hl] at h
    exact ⟨prev, rfl, by cases h; rfl⟩

theorem goAdd_wrapInt (x : Int) : goAdd (wrapInt x) 1 = wrapInt (x + 1) := by
  unfold goAdd wrapInt; omega

theorem Reachable.ne_nil {sha : String → String} {c : BlockChain} (h : Reachable sha c) :
    c.blocks ≠ [] := by
  cases h with
  | fresh now => simp [DeployFreshBlockChain]
  | add now d c0 c1 _ hadd =>
    obtain ⟨prev, _, hb⟩ := AddBlock_inv sha now c0 c d hadd
    simp [hb]


theorem getElem?_snoc_cases {α : Type} (l : List α) (x : α) (i : Nat) (b : α)
    (h : (l ++ [x])[i]? = some b) : l[i]? = some b ∨ (i = l.length ∧ b = x) := by
  rcases Nat.lt_trichotomy i l.length with hlt | heq | hgt
  · left; rwa [List.getElem?_append_left hlt] at h
  · right; subst heq; simp at h; exact ⟨rfl, h.symm⟩
  · exfalso
    have : (l ++ [x]).length ≤ i := by simp; omega
    rw [List.getElem?_eq_none this] at h; cases h

theorem getLast?_eq_some_getElem? {α : Type} (l : List α) (x : α)
    (h : l.getLast? = some x) : l ≠ [] ∧ l[l.length - 1]? = some x := by
  refine ⟨?_, ?_⟩
  · rintro rfl; simp at h
  · rw [← List.getLast?_eq_getElem?]; exact h

/-- In a reachable chain the block at index `i` has position `i + 1` (in Go
arithmetic). -/
theorem Reachable.pos_at {sha : String → String} {c : BlockChain} (h : Reachable sha c) :
    ∀ (i : Nat) (b : Block), c.blocks[i]? = some b → b.Pos = wrapInt ((i : Int) + 1) := by
  induction h with
  | fresh now =>
    intro i b hb
    cases i with
    | zero => simp [DeployFreshBlockChain] at hb; subst hb; rfl
    | succ i => simp [DeployFreshBlockChain] at hb
  | add now d c0 c1 hr hadd ih =>
    intro i b hb
    obtain ⟨prev, hl, hb1⟩ := AddBlock_inv sha now c0 c1 d hadd
    rw [hb1] at hb
    rcases getElem?_snoc_cases _ _ _ _ hb with h0 | ⟨hi, hnew⟩
    · exact ih i b h0
    · obtain ⟨hne, hlast⟩ := getLast?_eq_some_getElem? _ _ hl
      have hp := ih _ _ hlast
      have hlen : 0 < c0.blocks.length := List.length_pos.mpr hne
      subst hnew hi
      simp only [CreateBlock, generateHash]
      rw [hp, goAdd_wrapInt]
      congr 1
      omega

theorem Reachable.link_at {sha : String → String} {c : BlockChain} (h : Reachable sha c) :
    ∀ (i : Nat) (a b : Block), c.blocks[i]? = some a → c.blocks[i + 1]? = some b →
      b.PrevHash = a.Hash := by
  induction h with
  | fresh now =>
    intro i a b _ hb
    simp [DeployFreshBlockChain] at hb
  | add now d c0 c1 hr hadd ih =>
    intro i a b ha hb
    obtain ⟨prev, hl, hb1⟩ := AddBlock_inv sha now c0 c1 d hadd
    rw [hb1] at ha hb
    obtain ⟨hne, hlast⟩ := getLast?_eq_some_getElem? _ _ hl
    have hlen : 0 < c0.blocks.length := List.length_pos.mpr hne
    rcases getElem?_snoc_cases _ _ _ _ hb with h0 | ⟨hi, hnew⟩
    · have hlt : i + 1 < c0.blocks.length := (List.getElem?_eq_some_iff.mp h0).1
      rw [List.getElem?_append_left (by omega)] at ha
      exact ih i a b ha h0
    · have hi2 : i = c0.blocks.length - 1 := by omega
      rw [List.getElem?_append_left (by omega), hi2, hlast] at ha
      cases ha
      subst hnew
      rfl

theorem Reachable.hash_ok {sha : String → String} {c : BlockChain} (h : Reachable sha c) :
    ∀ b ∈ c.blocks, b.Hash = sha (hashInput b) := by
  induction h with
  | fresh now =>
    intro b hb
    simp [DeployFreshBlockChain] at hb
    subst hb; rfl
  | add now d c0 c1 hr hadd ih =>
    intro b hb
    obtain ⟨prev, hl, hb1⟩ := AddBlock_inv sha now c0 c1 d hadd
    rw [hb1] at hb
    rcases List.mem_append.mp hb with h0 | h1
    · exact ih b h0
    · simp at h1; subst h1; rfl

theorem Reachable.head_eq {sha : String → String} {c : BlockChain} (h : Reachable sha c) :
    ∃ now, c.blocks.head? = some (GenesisBlock sha now) := by
  induction h with
  | fresh now => exact ⟨now, rfl⟩
  | add now d c0 c1 hr hadd ih =>
    obtain ⟨prev, hl, hb1⟩ := AddBlock_inv sha now c0 c1 d hadd
    obtain ⟨n0, hn0⟩ := ih
    refine ⟨n0, ?_⟩
    rw [hb1]
    cases hc : c0.blocks with
    | nil => rw [hc] at hn0; simp at hn0
    | cons x xs => rw [hc] at hn0; simpa using hn0


theorem wrapInt_of_range (x : Int) (h1 : -9223372036854775808 ≤ x)
    (h2 : x < 9223372036854775808) : wrapInt x = x := by
  unfold wrapInt; omega

theorem wrapInt_max_succ : wrapInt 9223372036854775808 = -9223372036854775808 := by
  decide

theorem goAdd_pos_ne (i n : Nat) (hi : i + 1 < n) (hn : n < 9223372036854775808) :
    goAdd (wrapInt (((n - 1 : Nat) : Int) + 1)) 1 ≠ goAdd (wrapInt ((i : Int) + 1)) 1 := by
  have e1 : (((n - 1 : Nat) : Int) + 1) = (n : Int) := by omega
  rw [e1, goAdd_wrapInt, goAdd_wrapInt]
  rw [wrapInt_of_range ((i : Int) + 1 + 1) (by omega) (by omega)]
  by_cases hmax : (n : Int) + 1 < 9223372036854775808
  · rw [wrapInt_of_range ((n : Int) + 1) (by omega) hmax]; omega
  · have e2 : (n : Int) + 1 = 9223372036854775808 := by omega
    rw [e2, wrapInt_max_succ]; omega

/-! ## The JSON encoding loses nothing -/

theorem hexVal_hexDigit (k : Nat) (hk : k < 16) : hexVal (hexDigit k) = k := by
  interval_cases k <;> rfl

theorem char_eq_ofNat (c : Char) (n : Nat) (h : c.toNat = n) : c = Char.ofNat n := by
  rw [← h, Char.ofNat_toNat]

theorem unescapeRune_appendRune (c : Char) (r : List Char) :
    unescapeRune (appendRune c ++ r) = some (c, r) := by
  have hc : Char.ofNat c.toNat = c := Char.ofNat_toNat c
  unfold appendRune
  simp only
  split_ifs with h1 h2 h3 h4 h5 h6 h7 h8 h9
  · have : c.toNat ≠ 92 := by
      simp [htmlSafe] at h2; omega
    simp [unescapeRune, this]
  · have e1 : (Char.ofNat 92).toNat = 92 := rfl
    simp [unescapeRune, e1, h3]
  · have e1 : (Char.ofNat 92).toNat = 92 := rfl
    have e2 : (Char.ofNat 98).toNat = 98 := rfl
    simp [unescapeRune, e1, e2]
    exact (char_eq_ofNat c 8 h4).symm
  · have e1 : (Char.ofNat 92).toNat = 92 := rfl
    have e2 : (Char.ofNat 102).toNat = 102 := rfl
    simp [unescapeRune, e1, e2]
    exact (char_eq_ofNat c 12 h5).symm
  · have e1 : (Char.ofNat 92).toNat = 92 := rfl
    have e2 : (Char.ofNat 110).toNat = 110 := rfl
    simp [unescapeRune, e1, e2]
    exact (char_eq_ofNat c 10 h6).symm
  · have e1 : (Char.ofNat 92).toNat = 92 := rfl
    have e2 : (Char.ofNat 114).toNat = 114 := rfl
    simp [unescapeRune, e1, e2]
    exact (char_eq_ofNat c 13 h7).symm
  · have e1 : (Char.ofNat 92).toNat = 92 := rfl
    have e2 : (Char.ofNat 116).toNat = 116 := rfl
    simp [unescapeRune, e1, e2]
    exact (char_eq_ofNat c 9 h8).symm
  · have e1 : (Char.ofNat 92).toNat = 92 := rfl
    have e2 : (Char.ofNat 117).toNat = 117 := rfl
    have e3 : hexVal (Char.ofNat 48) = 0 := rfl
    have e4 : hexVal (hexDigit (c.toNat / 16)) = c.toNat / 16 := hexVal_hexDigit _ (by omega)
    have e5 : hexVal (hexDigit (c.toNat % 16)) = c.toNat % 16 := hexVal_hexDigit _ (by omega)
    have e6 : c.toNat / 16 * 16 + c.toNat % 16 = c.toNat := by omega
    simp [unescapeRune, e1, e2, e3, e4, e5, e6, hc]
  · have e1 : (Char.ofNat 92).toNat = 92 := rfl
    have e2 : (Char.ofNat 117).toNat = 117 := rfl
    have e3 : hexVal (Char.ofNat 48) = 0 := rfl
    have e7 : hexVal (Char.ofNat 50) = 2 := rfl
    have e5 : hexVal (hexDigit (c.toNat % 16)) = c.toNat % 16 := hexVal_hexDigit _ (by omega)
    have e6 : 2 * 4096 + 2 * 16 + c.toNat % 16 = c.toNat := by omega
    simp [unescapeRune, e1, e2, e3, e7, e5, e6, hc]
  · have : c.toNat ≠ 92 := by omega
    simp [unescapeRune, this]


theorem appendRune_head_ne_quote (c : Char) :
    ∃ a t, appendRune c = a :: t ∧ a.toNat ≠ 34 := by
  have e1 : (Char.ofNat 92).toNat = 92 := rfl
  unfold appendRune
  simp only
  split_ifs with h1 h2 h3
  · exact ⟨c, [], rfl, by simp [htmlSafe] at h2; omega⟩
  all_goals first
    | exact ⟨Char.ofNat 92, _, rfl, by decide⟩
    | exact ⟨c, [], rfl, by omega⟩

/-- The escaped body of a JSON string ends at the first unescaped double quote:
two bodies followed by a quote agree only for equal texts. -/
theorem appendRunes_quote_inj :
    ∀ (s t x y : List Char),
      appendRunes s ++ Char.ofNat 34 :: x = appendRunes t ++ Char.ofNat 34 :: y →
      s = t ∧ x = y := by
  intro s
  induction s with
  | nil =>
    intro t x y h
    cases t with
    | nil => simpa [appendRunes] using h
    | cons d t =>
      exfalso
      obtain ⟨a, tl, ha, hne⟩ := appendRune_head_ne_quote d
      simp only [appendRunes, ha, List.nil_append, List.cons_append, List.append_assoc] at h
      injection h with h1 _
      exact hne (by rw [← h1]; rfl)
  | cons c s ih =>
    intro t x y h
    cases t with
    | nil =>
      exfalso
      obtain ⟨a, tl, ha, hne⟩ := appendRune_head_ne_quote c
      simp only [appendRunes, ha, List.nil_append, List.cons_append, List.append_assoc] at h
      injection h with h1 _
      exact hne (by rw [h1]; rfl)
    | cons d t =>
      simp only [appendRunes, List.append_assoc] at h
      have h2 := congrArg unescapeRune h
      rw [unescapeRune_appendRune, unescapeRune_appendRune] at h2
      injection h2 with h2
      injection h2 with hcd hrest
      obtain ⟨hst, hxy⟩ := ih t x y hrest
      exact ⟨by rw [hcd, hst], hxy⟩

theorem appendString_inj (s t : String) (x y : List Char)
    (h : appendString s ++ x = appendString t ++ y) : s = t ∧ x = y := by
  simp only [appendString, List.cons_append, List.append_assoc, List.singleton_append] at h
  injection h with _ h
  obtain ⟨h1, h2⟩ := appendRunes_quote_inj _ _ _ _ h
  exact ⟨String.ext h1, h2⟩

theorem appendBool_inj (a b : Bool) (x : List Char)
    (h : appendBool a ++ x = appendBool b ++ x) : a = b := by
  have h1 := List.append_cancel_right h
  cases a <;> cases b <;> first | rfl | (exfalso; revert h1; decide)

theorem jsonMarshal_injective : Function.Injective jsonMarshal := by
  intro d1 d2 h
  have h0 := congrArg String.data h
  simp only [jsonMarshal, List.append_assoc] at h0
  have h1 := List.append_cancel_left h0
  obtain ⟨e1, h2⟩ := appendString_inj _ _ _ _ h1
  have h3 := List.append_cancel_left h2
  obtain ⟨e2, h4⟩ := appendString_inj _ _ _ _ h3
  have h5 := List.append_cancel_left h4
  obtain ⟨e3, h6⟩ := appendString_inj _ _ _ _ h5
  have h7 := List.append_cancel_left h6
  have e4 := appendBool_inj _ _ _ h7
  cases d1; cases d2
  simp only at e1 e2 e3 e4
  subst e1 e2 e3 e4
  rfl

/-! ## Facts shared by the claims -/

theorem textDigest_injective : Function.Injective textDigest :=
  fun _ _ h => h

theorem sampleChain_reachable : Reachable textDigest sampleChain :=
  Reachable.add "T1" zeroCheckout (DeployFreshBlockChain textDigest "T0") sampleChain
    (Reachable.fresh "T0") (by decide)

theorem validateHash_fst (sha : String → String) (b : Block) (hash : String) :
    (validateHash sha b hash).1 = decide (sha (hashInput b) = hash) := rfl

theorem validateHash_snd (sha : String → String) (b : Block) (hash : String) :
    (validateHash sha b hash).2 = generateHash sha b := rfl

/-- Two blocks with the same `Pos` that differ in exactly one of `TimeStamp`,
`Data`, `PrevHash` give different digest inputs. -/
theorem hashInput_ne_of_differsInOne (b1 b2 : Block) (hpos : b1.Pos = b2.Pos)
    (h : DiffersInOne b1 b2) : hashInput b1 ≠ hashInput b2 := by
  intro heq
  have hd := congrArg String.data heq
  simp only [hashInput, String.data_append, hpos, List.append_assoc] at hd
  have h1 := List.append_cancel_left hd
  rcases h with ⟨ht, hdat, hp⟩ | ⟨ht, hdat, hp⟩ | ⟨ht, hdat, hp⟩
  · rw [hdat, hp] at h1
    exact ht (String.ext (List.append_cancel_right h1))
  · rw [ht, hp] at h1
    have h2 := List.append_cancel_left h1
    have h3 := List.append_cancel_right h2
    exact hdat (jsonMarshal_injective (String.ext h3))
  · rw [ht, hdat] at h1
    have h2 := List.append_cancel_left (List.append_cancel_left h1)
    exact hp (String.ext h2)

/-! ## The claims -/

/-- Claim C1, as amended: every chain reachable from `DeployFreshBlockChain` by
`AddBlock` calls is non-empty, and its first block has `Pos = 1` (one more than
the `Pos` of the zero block it is created from), `Data.IsGenesis = true` and an
empty `PrevHash`. -/
theorem reachable_first_block (sha : String → String) (c : BlockChain)
    (h : Reachable sha c) :
    ∃ g rest, c.blocks = g :: rest ∧ g.Pos = 1 ∧ g.Data.IsGenesis = true ∧ g.PrevHash = "" := by
  obtain ⟨now, hn⟩ := h.head_eq
  cases hc : c.blocks with
  | nil => rw [hc] at hn; simp at hn
  | cons g rest =>
    rw [hc] at hn
    simp only [List.head?_cons, Option.some.injEq] at hn
    subst hn
    exact ⟨_, rest, rfl, rfl, rfl, rfl⟩

/-- Witness of claim C1 as amended, on the sample chain of two blocks. -/
theorem reachable_first_block_witness :
    Reachable textDigest sampleChain ∧
    ∃ g rest, sampleChain.blocks = g :: rest ∧ g.Pos = 1 ∧ g.Data.IsGenesis = true ∧
      g.PrevHash = "" :=
  ⟨sampleChain_reachable, reachable_first_block textDigest sampleChain sampleChain_reachable⟩

/-- Claim C1 fails as stated: the fresh chain is reachable, and the `Pos` of its
first block is 1, not 0, whatever the digest function and the clock reading. -/
theorem genesis_pos_counterexample :
    Reachable textDigest (DeployFreshBlockChain textDigest "T0") ∧
    (DeployFreshBlockChain textDigest "T0").blocks.head?.map Block.Pos = some 1 ∧
    (DeployFreshBlockChain textDigest "T0").blocks.head?.map Block.Pos ≠ some 0 ∧
    (∀ (sha : String → String) (now : String),
      (DeployFreshBlockChain sha now).blocks.head?.map Block.Pos = some 1) :=
  ⟨Reachable.fresh "T0", by decide, by decide, fun _ _ => rfl⟩

/-- Claim C2: in every chain reachable from `DeployFreshBlockChain` by `AddBlock`
calls, each block's `PrevHash` equals the `Hash` of the block just before it. -/
theorem reachable_prevHash_link (sha : String → String) (c : BlockChain)
    (h : Reachable sha c) (i : Nat) (a b : Block)
    (ha : c.blocks[i]? = some a) (hb : c.blocks[i + 1]? = some b) :
    b.PrevHash = a.Hash :=
  h.link_at i a b ha hb

/-- Witness of claim C2, on the two blocks of the sample chain. -/
theorem reachable_prevHash_link_witness :
    Reachable textDigest sampleChain ∧ sampleChain.blocks[0]? = some sampleGenesis ∧
    sampleChain.blocks[0 + 1]? = some sampleSecond ∧
    sampleSecond.PrevHash = sampleGenesis.Hash :=
  ⟨sampleChain_reachable, rfl, rfl,
    reachable_prevHash_link textDigest sampleChain sampleChain_reachable 0 sampleGenesis
      sampleSecond rfl rfl⟩

/-- Claim C3: for every block of a chain reachable from `DeployFreshBlockChain`
by `AddBlock` calls, the genesis block included, `validateHash` called with the
block's stored `Hash` returns true, the stored `Hash` is the digest of the
block's own `Pos`, `TimeStamp`, `Data` and `PrevHash`, and the call leaves the
block as it was. -/
theorem reachable_validateHash (sha : String → String) (c : BlockChain)
    (h : Reachable sha c) (b : Block) (hb : b ∈ c.blocks) :
    (validateHash sha b b.Hash).1 = true ∧ b.Hash = sha (hashInput b) ∧
      (validateHash sha b b.Hash).2 = b := by
  have hh := h.hash_ok b hb
  refine ⟨?_, hh, ?_⟩
  · rw [validateHash_fst]; exact decide_eq_true hh.symm
  · rw [validateHash_snd]
    cases b
    simp only [generateHash] at hh ⊢
    rw [← hh]

/-- Witness of claim C3, on the second block of the sample chain. -/
theorem reachable_validateHash_witness :
    Reachable textDigest sampleChain ∧ sampleSecond ∈ sampleChain.blocks ∧
    (validateHash textDigest sampleSecond sampleSecond.Hash).1 = true ∧
    sampleSecond.Hash = textDigest (hashInput sampleSecond) ∧
    (validateHash textDigest sampleSecond sampleSecond.Hash).2 = sampleSecond :=
  ⟨sampleChain_reachable, by decide,
    reachable_validateHash textDigest sampleChain sampleChain_reachable sampleSecond
      (by decide)⟩

/-- Claim C4, as amended: for every block produced by `CreateBlock`, a block with
the same `Pos` that differs from it in exactly one of `TimeStamp`, `Data`
(for example `Data.User`) and `PrevHash` is fed to the digest as a different
text, and `validateHash` on it with the sealed block's stored `Hash` returns
false, taking the digest to be injective; and any two blocks with the same
`Pos` that differ in exactly one of those three fields never yield the same
text fed to the digest. -/
theorem tamper_one_field_detected (sha : String → String) (hinj : Function.Injective sha)
    (now : String) (d : BookCheckout) (prev : Block) (t : Block)
    (hpos : t.Pos = (CreateBlock sha now d prev).Pos)
    (hone : DiffersInOne t (CreateBlock sha now d prev)) :
    hashInput t ≠ hashInput (CreateBlock sha now d prev) ∧
    (validateHash sha t (CreateBlock sha now d prev).Hash).1 = false ∧
    (∀ b1 b2 : Block, b1.Pos = b2.Pos → DiffersInOne b1 b2 → hashInput b1 ≠ hashInput b2) := by
  have hne := hashInput_ne_of_differsInOne t _ hpos hone
  refine ⟨hne, ?_, fun b1 b2 h1 h2 => hashInput_ne_of_differsInOne b1 b2 h1 h2⟩
  rw [validateHash_fst]
  apply decide_eq_false
  intro h
  exact hne (hinj h)

/-- Witness of claim C4 as amended: the sample second block with `Data.User`
changed to another name. -/
theorem tamper_one_field_detected_witness :
    Function.Injective textDigest ∧
    DiffersInOne { sampleSecond with Data := { zeroCheckout with User := "mallory" } }
      (CreateBlock textDigest "T1" zeroCheckout sampleGenesis) ∧
    (validateHash textDigest
      { sampleSecond with Data := { zeroCheckout with User := "mallory" } }
      (CreateBlock textDigest "T1" zeroCheckout sampleGenesis).Hash).1 = false :=
  ⟨textDigest_injective, Or.inr (Or.inl ⟨rfl, by decide, rfl⟩),
    (tamper_one_field_detected textDigest textDigest_injective "T1" zeroCheckout sampleGenesis
      { sampleSecond with Data := { zeroCheckout with User := "mallory" } } rfl
      (Or.inr (Or.inl ⟨rfl, by decide, rfl⟩))).2.1⟩

/-- Claim C4 fails as stated, under an injective digest.  First, the block that
`CreateBlock` builds on a predecessor at `Pos` 55295 has `Pos` 55296; changing
its `Pos` to 55297 leaves the text fed to the digest the same, and
`validateHash` with the stored `Hash` returns true.  Second, two blocks that
differ in `TimeStamp` and in `PrevHash` are fed to the digest as the same
text. -/
theorem tamper_undetected_counterexample :
    Function.Injective textDigest ∧
    (CreateBlock textDigest "T" zeroCheckout { zeroBlock with Pos := 55295 }).Pos = 55296 ∧
    (validateHash textDigest
      { CreateBlock textDigest "T" zeroCheckout { zeroBlock with Pos := 55295 } with
        Pos := 55297 }
      (CreateBlock textDigest "T" zeroCheckout { zeroBlock with Pos := 55295 }).Hash).1 = true ∧
    hashInput { CreateBlock textDigest "T" zeroCheckout { zeroBlock with Pos := 55295 } with
        Pos := 55297 } =
      hashInput (CreateBlock textDigest "T" zeroCheckout { zeroBlock with Pos := 55295 }) ∧
    ({ zeroBlock with Pos := 1, TimeStamp := jsonMarshal zeroCheckout } : Block) ≠
      { zeroBlock with Pos := 1, PrevHash := jsonMarshal zeroCheckout } ∧
    hashInput { zeroBlock with Pos := 1, TimeStamp := jsonMarshal zeroCheckout } =
      hashInput { zeroBlock with Pos := 1, PrevHash := jsonMarshal zeroCheckout } :=
  ⟨textDigest_injective, by decide, by decide, by decide, by decide, by decide⟩

/-- Claim C5: in a chain reachable from `DeployFreshBlockChain` by `AddBlock`
calls (its length an `int`, as that of every slice), for every block `s` other
than the last (so the chain holds at least two blocks), the last block `tail`
and every payload, `validBlock` on the candidate `CreateBlock` builds from `s`
returns false against `tail`, and the guarded append of `AddBlock` leaves the
chain, hence its length, unchanged. -/
theorem stale_candidate_rejected (sha : String → String) (c : BlockChain)
    (hr : Reachable sha c) (hlen : c.blocks.length < 9223372036854775808)
    (i : Nat) (s tail : Block) (hs : c.blocks[i]? = some s) (hi : i + 1 < c.blocks.length)
    (ht : c.blocks.getLast? = some tail) (now : String) (p : BookCheckout) :
    (validBlock sha (CreateBlock sha now p s) tail).1 = false ∧
    (if (validBlock sha (CreateBlock sha now p s) tail).1 = true
      then c.blocks ++ [(validBlock sha (CreateBlock sha now p s) tail).2]
      else c.blocks) = c.blocks := by
  have hps := hr.pos_at i s hs
  obtain ⟨_, hlast⟩ := getLast?_eq_some_getElem? _ _ ht
  have hpt := hr.pos_at _ tail hlast
  have hne : goAdd tail.Pos 1 ≠ goAdd s.Pos 1 := by
    rw [hps, hpt]
    exact goAdd_pos_ne i c.blocks.length hi hlen
  have hfalse : (validBlock sha (CreateBlock sha now p s) tail).1 = false := by
    unfold validBlock
    by_cases h1 : tail.Hash ≠ (CreateBlock sha now p s).PrevHash
    · rw [if_pos h1]
    · rw [if_neg h1]
      simp only [validateHash_generateHash, CreateBlock]
      simp [generateHash, hne]
  exact ⟨hfalse, by rw [hfalse]; simp⟩

/-- Witness of claim C5: a candidate built on the genesis block of the sample
chain is rejected against its last block. -/
theorem stale_candidate_rejected_witness :
    Reachable textDigest sampleChain ∧ sampleChain.blocks.length < 9223372036854775808 ∧
    sampleChain.blocks[0]? = some sampleGenesis ∧ 0 + 1 < sampleChain.blocks.length ∧
    sampleChain.blocks.getLast? = some sampleSecond ∧
    (validBlock textDigest (CreateBlock textDigest "T2" zeroCheckout sampleGenesis)
      sampleSecond).1 = false :=
  ⟨sampleChain_reachable, by decide, rfl, by decide, rfl,
    (stale_candidate_rejected textDigest sampleChain sampleChain_reachable (by decide) 0
      sampleGenesis sampleSecond rfl (by decide) rfl "T2" zeroCheckout).1⟩

/-- Claim C6, evaluated on a block at `Pos` 1: the text `generateHash` feeds to
SHA-256 is `TimeStamp`, the JSON of `Data` with the keys in the order `book_id`,
`user`, `check_date`, `is_genesis`, and `PrevHash`, in this order, but it starts
with the rune of code 1 and not with the decimal text of `Pos`, so it differs
from the text the claim describes. -/
theorem hashInput_pos_not_decimal :
    hashInput { zeroBlock with Pos := 1, TimeStamp := "T", PrevHash := "P" } =
      "\x01T\x7b\x22book_id\x22:\x22\x22,\x22user\x22:\x22\x22,\x22check_date\x22:\x22\x22,\x22is_genesis\x22:false\x7dP" ∧
    hashInputSpec { zeroBlock with Pos := 1, TimeStamp := "T", PrevHash := "P" } =
      "1T\x7b\x22book_id\x22:\x22\x22,\x22user\x22:\x22\x22,\x22check_date\x22:\x22\x22,\x22is_genesis\x22:false\x7dP" ∧
    hashInput { zeroBlock with Pos := 1, TimeStamp := "T", PrevHash := "P" } ≠
      hashInputSpec { zeroBlock with Pos := 1, TimeStamp := "T", PrevHash := "P" } :=
  ⟨by decide, by decide, by decide⟩

/-- Claim C7, as amended: for every block whose stored `Hash` differs from the
digest of its current `Pos`, `TimeStamp`, `Data` and `PrevHash`, `validateHash`
called with that stored `Hash` returns false and overwrites the stored `Hash`
with the recomputed digest, leaving the other fields as they were; so the
mismatch is reported once, and calling `validateHash` again with the block's
`Hash` returns true. -/
theorem validateHash_mismatch_overwrites (sha : String → String) (b : Block)
    (hbad : b.Hash ≠ sha (hashInput b)) :
    (validateHash sha b b.Hash).1 = false ∧
    (validateHash sha b b.Hash).2 = { b with Hash := sha (hashInput b) } ∧
    (validateHash sha b b.Hash).2.Hash ≠ b.Hash ∧
    (validateHash sha (validateHash sha b b.Hash).2 (validateHash sha b b.Hash).2.Hash).1 =
      true := by
  refine ⟨?_, rfl, ?_, ?_⟩
  · rw [validateHash_fst]; exact decide_eq_false (fun h => hbad h.symm)
  · rw [validateHash_snd]; exact fun h => hbad h.symm
  · rw [validateHash_snd, validateHash_generateHash]

/-- Witness of claim C7 as amended, on the sample block with a wrong hash. -/
theorem validateHash_mismatch_overwrites_witness :
    sampleCorrupt.Hash ≠ textDigest (hashInput sampleCorrupt) ∧
    (validateHash textDigest sampleCorrupt sampleCorrupt.Hash).1 = false ∧
    (validateHash textDigest (validateHash textDigest sampleCorrupt sampleCorrupt.Hash).2
      (validateHash textDigest sampleCorrupt sampleCorrupt.Hash).2.Hash).1 = true :=
  ⟨by decide,
    (validateHash_mismatch_overwrites textDigest sampleCorrupt (by decide)).1,
    (validateHash_mismatch_overwrites textDigest sampleCorrupt (by decide)).2.2.2⟩

/-- Claim C7 fails as stated: the sample block stores the hash `bad`, which is
not the digest of its fields; `validateHash` with the stored hash returns
false, but the block it leaves no longer stores `bad`, and a second call with
the hash then stored returns true. -/
theorem validateHash_repairs_counterexample :
    sampleCorrupt.Hash = "bad" ∧
    sampleCorrupt.Hash ≠ textDigest (hashInput sampleCorrupt) ∧
    (validateHash textDigest sampleCorrupt sampleCorrupt.Hash).1 = false ∧
    (validateHash textDigest sampleCorrupt sampleCorrupt.Hash).2.Hash ≠ "bad" ∧
    (validateHash textDigest (validateHash textDigest sampleCorrupt sampleCorrupt.Hash).2
      (validateHash textDigest sampleCorrupt sampleCorrupt.Hash).2.Hash).1 = true :=
  ⟨rfl, by decide, by decide, by decide, by decide⟩

/-- Claim C8: for every non-empty chain and every payload, `AddBlock` returns a
chain in which every block that was already there stands at the same index
with all its fields unchanged; the chain it returns is the old one or the old
one followed by one new block, the candidate. -/
theorem AddBlock_frame (sha : String → String) (now : String) (c : BlockChain)
    (d : BookCheckout) (hne : c.blocks ≠ []) :
    ∃ c1, AddBlock sha now c d = some c1 ∧
      (∀ i, i < c.blocks.length → c1.blocks[i]? = c.blocks[i]?) ∧
      (c1.blocks = c.blocks ∨ ∃ nb, c1.blocks = c.blocks ++ [nb]) := by
  obtain ⟨prev, hprev⟩ := Option.isSome_iff_exists.mp
    (by simpa using hne : c.blocks.getLast?.isSome)
  refine ⟨_, AddBlock_of_getLast? sha now c d prev hprev, ?_, Or.inr ⟨_, rfl⟩⟩
  intro i hi
  exact List.getElem?_append_left hi

/-- Witness of claim C8, on the sample chain. -/
theorem AddBlock_frame_witness :
    sampleChain.blocks ≠ [] ∧
    ∃ c1, AddBlock textDigest "T2" sampleChain zeroCheckout = some c1 ∧
      (∀ i, i < sampleChain.blocks.length → c1.blocks[i]? = sampleChain.blocks[i]?) ∧
      (c1.blocks = sampleChain.blocks ∨ ∃ nb, c1.blocks = sampleChain.blocks ++ [nb]) :=
  ⟨by decide, AddBlock_frame textDigest "T2" sampleChain zeroCheckout (by decide)⟩

/-- Claim C9: for every non-empty chain and every payload, whenever `AddBlock`
extends the chain, the `Pos` of the new last block is the `Pos` of the previous
last block plus one (Go's `+`, which is the exact sum whenever the previous
`Pos` is an `int` other than the largest one); hence in every chain reachable
from `DeployFreshBlockChain` each block's `Pos` is one greater than that of the
block before it (exactly so, the length of the chain being an `int`). -/
theorem AddBlock_pos_succ (sha : String → String) :
    (∀ (now : String) (c c1 : BlockChain) (d : BookCheckout) (prev nb : Block),
      c.blocks.getLast? = some prev → AddBlock sha now c d = some c1 →
      c1.blocks.length = c.blocks.length + 1 → c1.blocks.getLast? = some nb →
      nb.Pos = goAdd prev.Pos 1 ∧
      (-9223372036854775808 ≤ prev.Pos → prev.Pos < 9223372036854775807 →
        nb.Pos = prev.Pos + 1)) ∧
    (∀ (c : BlockChain), Reachable sha c → ∀ (i : Nat) (a b : Block),
      c.blocks[i]? = some a → c.blocks[i + 1]? = some b →
      b.Pos = goAdd a.Pos 1 ∧ (c.blocks.length < 9223372036854775808 → b.Pos = a.Pos + 1)) := by
  constructor
  · intro now c c1 d prev nb hprev hadd _ hnb
    rw [AddBlock_of_getLast? sha now c d prev hprev] at hadd
    cases hadd
    rw [List.getLast?_concat] at hnb
    cases hnb
    refine ⟨rfl, fun h1 h2 => ?_⟩
    show goAdd prev.Pos 1 = prev.Pos + 1
    exact wrapInt_of_range _ (by omega) (by omega)
  · intro c hr i a b ha hb
    have hpa := hr.pos_at i a ha
    have hpb := hr.pos_at (i + 1) b hb
    have hlt : i + 1 < c.blocks.length := (List.getElem?_eq_some_iff.mp hb).1
    constructor
    · rw [hpa, hpb, goAdd_wrapInt]; push_cast; rfl
    · intro hlen
      rw [hpa, hpb, wrapInt_of_range _ (by omega) (by omega),
        wrapInt_of_range _ (by omega) (by omega)]
      push_cast; rfl

/-- Witness of claim C9: appending to the fresh sample chain gives a block at
`Pos` 2 after the genesis block at `Pos` 1. -/
theorem AddBlock_pos_succ_witness :
    (DeployFreshBlockChain textDigest "T0").blocks.getLast? = some sampleGenesis ∧
    AddBlock textDigest "T1" (DeployFreshBlockChain textDigest "T0") zeroCheckout =
      some sampleChain ∧
    sampleChain.blocks.getLast? = some sampleSecond ∧
    sampleSecond.Pos = goAdd sampleGenesis.Pos 1 ∧ sampleSecond.Pos = sampleGenesis.Pos + 1 :=
  ⟨rfl, by decide, rfl,
    ((AddBlock_pos_succ textDigest).1 "T1" (DeployFreshBlockChain textDigest "T0") sampleChain
      zeroCheckout sampleGenesis sampleSecond rfl (by decide) rfl rfl).1,
    ((AddBlock_pos_succ textDigest).1 "T1" (DeployFreshBlockChain textDigest "T0") sampleChain
      zeroCheckout sampleGenesis sampleSecond rfl (by decide) rfl rfl).2 (by decide)
      (by decide)⟩

/-- Claim C10: for every non-empty chain, whatever its blocks contain, and every
payload, `validBlock` returns true on the candidate `AddBlock` builds from the
current last block, so `AddBlock` never takes the rejection branch: the chain
grows by exactly one block, and that block's `Data` is the payload. -/
theorem AddBlock_never_rejects (sha : String → String) (now : String) (c : BlockChain)
    (d : BookCheckout) (hne : c.blocks ≠ []) :
    ∃ prev, c.blocks.getLast? = some prev ∧
      (validBlock sha (CreateBlock sha now d prev) prev).1 = true ∧
      ∃ c1 nb, AddBlock sha now c d = some c1 ∧ c1.blocks = c.blocks ++ [nb] ∧
        c1.blocks.length = c.blocks.length + 1 ∧ nb.Data = d := by
  obtain ⟨prev, hprev⟩ := Option.isSome_iff_exists.mp
    (by simpa using hne : c.blocks.getLast?.isSome)
  refine ⟨prev, hprev, ?_, _, _, AddBlock_of_getLast? sha now c d prev hprev, rfl, ?_, rfl⟩
  · rw [validBlock_CreateBlock]
  · simp

/-- Witness of claim C10, on the fresh sample chain. -/
theorem AddBlock_never_rejects_witness :
    (DeployFreshBlockChain textDigest "T0").blocks ≠ [] ∧
    ∃ prev, (DeployFreshBlockChain textDigest "T0").blocks.getLast? = some prev ∧
      (validBlock textDigest (CreateBlock textDigest "T1" zeroCheckout prev) prev).1 = true ∧
      ∃ c1 nb, AddBlock textDigest "T1" (DeployFreshBlockChain textDigest "T0") zeroCheckout =
          some c1 ∧ c1.blocks = (DeployFreshBlockChain textDigest "T0").blocks ++ [nb] ∧
        c1.blocks.length = (DeployFreshBlockChain textDigest "T0").blocks.length + 1 ∧
        nb.Data = zeroCheckout :=
  ⟨by decide,
    AddBlock_never_rejects textDigest "T1" (DeployFreshBlockChain textDigest "T0") zeroCheckout
      (by decide)⟩

end SimpleBlockchain
